import Mathlib

/-!
# Verification of the objectDB table / result / codec specification

Shallow embedding of the objectDB repository (Go) in Lean 4.

The embedding follows the current revision of the source:
* `main.go` — `Table`, `Insert`, `delete`, `update`, `copy`, `order`,
  `Match`, `First`, `All`, `Size`, `persistItem`;
* `result.go` (src/unnamed/part_001, second revision, the one the claims
  cite) — `Result`, `Size`, `Get`, `Iter`, `Delete`, `Update`, `Order`;
* `persist.go` — the `Monthly` name provider;
* `serialize/serialize.go` — the typed binary codec.

Modelling conventions:
* Go slices become `List`; machine `int` indices that the code can use to
  index a slice without a bounds check become `Int`, and an indexing
  operation that can panic is modelled by `Option` (with `none` = runtime
  panic).  A bounds-checked read is `getI`.
* The Go `deepCopy` callback defaults to `*dst = *src`; in a
  value-semantics embedding a deep copy of a value is the value itself,
  so the stored copy of `e` is `e`.
* Each distinct `errors.New` / `fmt.Errorf` error value in the source is
  one constructor of `DBError`; an error produced by the persistence
  backend is `DBError.persistFailed`.
* The persistence backend is abstracted by `Config`: `persistOn` says
  whether a backend is configured, `persistErr` is its outcome, and every
  successful `Persist(name, items)` call is recorded in the table's
  `journal` so that "the persisted state is unchanged" is statable.
  The delayed-write path (`delayedWrite ≠ nil`) is background-goroutine
  machinery and is not modelled; `persistItem` follows its
  `delayedWrite == nil` branch.
* The mutex bodies are modelled as atomic pure state transformers.
-/

deriving instance DecidableEq for Except

namespace ObjectDB

/-- Errors of the table and result operations.  Each constructor is one
distinct error value created in the Go source; the Go message is given in
the comment. -/
inductive DBError where
  /-- Go message: impossible insert state (Table.Insert) -/
  | impossibleInsertState
  /-- Go message: delete: table has changed (Table.delete) -/
  | deleteTableChanged
  /-- Go message: update: table has changed (Table.update) -/
  | updateTableChanged
  /-- Go message: update: order violation (Table.update) -/
  | updateOrderViolation
  /-- Go message: copy: index out of range (Table.copy) -/
  | copyIndexOutOfRange
  /-- Go message: copy: table has changed (Table.copy) -/
  | copyTableChanged
  /-- Go message: order: table has changed (Table.order) -/
  | orderTableChanged
  /-- Go message: item: index out of range (Result.Get) -/
  | itemIndexOutOfRange
  /-- An error returned by the persistence backend, wrapped unchanged. -/
  | persistFailed (msg : String)
deriving DecidableEq, Repr

/-- The per-table configuration chosen at `New`: the optional primary order
`orderLess`, the name provider (`sameFile` / `toFile`), and the persistence
backend (`persistOn` + its outcome `persistErr`; `none` = success). -/
structure Config (E : Type) where
  orderLess : Option (E → E → Bool)
  sameFile : E → E → Bool
  toFile : E → String
  persistOn : Bool
  persistErr : String → List E → Option String

/-- The mutable state of a `Table`: the owned record sequence `data`, the
`version` counter, and the `journal` of successful backend `Persist` calls
(name, items written), recording the externally persisted state. -/
structure Table (E : Type) where
  data : List E
  version : Nat
  journal : List (String × List E)
deriving DecidableEq, Repr

/-- The state of a `Result`: the captured table indices and the table
version at capture time (`result.go`, second revision: the struct has no
deep-copy cache). -/
structure Result where
  tableIndex : List Int
  version : Nat
deriving DecidableEq, Repr

/-- Go slice indexing `l[i]` with an `int` index: `some` element when
`0 ≤ i < len l`, `none` (= runtime panic) otherwise. -/
def getI {α : Type} (l : List α) (i : Int) : Option α :=
  if 0 ≤ i then l.get? i.toNat else none

/-- `Table.persistItem` (main.go), `delayedWrite == nil` branch: if a
backend is configured, collect every element in the same file group as `e`,
resolve the file name, and call `Persist`; a successful call is recorded in
the journal. -/
def persistItem {E : Type} (cfg : Config E) (st : Table E) (e : E) :
    Table E × Option DBError :=
  if cfg.persistOn then
    let p := st.data.filter (fun en => cfg.sameFile en e)
    let name := cfg.toFile e
    match cfg.persistErr name p with
    | none => ({ st with journal := st.journal ++ [(name, p)] }, none)
    | some msg => (st, some (.persistFailed msg))
  else
    (st, none)

/-- `Table.Size` (main.go). -/
def Table.Size {E : Type} (st : Table E) : Nat :=
  st.data.length

/-- The insertion scan of `Table.Insert` (main.go):
`for i, en := range t.data { if t.orderLess(&deepCopy, en) { … } }` —
the first index whose element the new record is less than, if any. -/
def findInsertPos {E : Type} (less : E → E → Bool) (e : E) : List E → Option Nat
  | [] => none
  | en :: rest =>
      if less e en then some 0
      else (findInsertPos less e rest).map (fun i => i + 1)

/-- `Table.Insert` (main.go).  The deep copy of `e` is the value `e`.
Fast path: no order configured, or empty table, or the last element is
less than the copy — append.  Otherwise scan for the first position whose
element the copy is less than and insert there; if none exists, fail with
`impossible insert state` without touching the table. -/
def Table.Insert {E : Type} (cfg : Config E) (st : Table E) (e : E) :
    Table E × Option DBError :=
  match cfg.orderLess with
  | none =>
      persistItem cfg { st with data := st.data ++ [e], version := st.version + 1 } e
  | some less =>
      match st.data.getLast? with
      | none =>
          persistItem cfg { st with data := st.data ++ [e], version := st.version + 1 } e
      | some last =>
          if less last e then
            persistItem cfg { st with data := st.data ++ [e], version := st.version + 1 } e
          else
            match findInsertPos less e st.data with
            | some i =>
                persistItem cfg
                  { st with data := st.data.take i ++ e :: st.data.drop i,
                            version := st.version + 1 } e
            | none => (st, some .impossibleInsertState)

/-- `Table.delete` (main.go): version check, then remove `data[index]`
(shift left, truncate), increment the version, persist the removed
element's group.  The index access `t.data[index]` has no bounds check:
out of range is a panic (`none`). -/
def Table.delete {E : Type} (cfg : Config E) (st : Table E)
    (index : Int) (version : Nat) : Option (Table E × Option DBError) :=
  if st.version ≠ version then
    some (st, some .deleteTableChanged)
  else
    match getI st.data index with
    | none => none
    | some e =>
        some (persistItem cfg
          { st with data := st.data.take index.toNat ++ st.data.drop (index.toNat + 1),
                    version := st.version + 1 } e)

/-- The order-check statements of `Table.update` (main.go):
`ok1 := index == 0 || t.orderLess(t.data[index-1], e)` and
`ok2 := index == len(t.data)-1 || t.orderLess(e, t.data[index+1])`.
Both statements run, so either index access can panic (`none`);
the combined result is `ok1 && ok2`.  With no order configured the
checks are skipped (`true`). -/
def orderChecks {E : Type} (cfg : Config E) (st : Table E) (index : Int) (e : E) :
    Option Bool :=
  match cfg.orderLess with
  | none => some true
  | some less =>
      let ok1 : Option Bool :=
        if index = 0 then some true
        else (getI st.data (index - 1)).map (fun a => less a e)
      match ok1 with
      | none => none
      | some b1 =>
          let ok2 : Option Bool :=
            if index = (st.data.length : Int) - 1 then some true
            else (getI st.data (index + 1)).map (fun b => less e b)
          match ok2 with
          | none => none
          | some b2 => some (b1 && b2)

/-- `Table.update` (main.go): version check; then the order checks of
`orderChecks` (reject with `order violation` if they fail); else deep-copy
`e` over `data[index]` in place (a panic if `index` is out of range) and
persist.  The version counter is NOT incremented. -/
def Table.update {E : Type} (cfg : Config E) (st : Table E)
    (index : Int) (version : Nat) (e : E) : Option (Table E × Option DBError) :=
  if st.version ≠ version then
    some (st, some .updateTableChanged)
  else
    match orderChecks cfg st index e with
    | none => none
    | some ok =>
        if ok then
          match getI st.data index with
          | none => none
          | some _ =>
              some (persistItem cfg { st with data := st.data.set index.toNat e } e)
        else
          some (st, some .updateOrderViolation)

/-- `Table.copy` (main.go): bounds check (`copy: index out of range`),
then version check (`copy: table has changed`), then deep-copy out. -/
def Table.copy {E : Type} (st : Table E) (n : Int) (version : Nat) :
    Except DBError E :=
  match getI st.data n with
  | none => .error .copyIndexOutOfRange
  | some e =>
      if st.version ≠ version then .error .copyTableChanged
      else .ok e

/-- Comparator used by `Table.order`'s `sort.Slice` call: compare the
records the two indices reference.  (Go would panic on an out-of-range
index inside the sort; valid results never reach that, and the model
returns `false` there.) -/
def lessIdx {E : Type} (data : List E) (less : E → E → Bool) (i j : Int) : Bool :=
  match getI data i, getI data j with
  | some a, some b => less a b
  | _, _ => false

/-- Insertion into a list sorted by `le` (helper for the model of
`sort.Slice`, whose concrete algorithm the Go library does not specify). -/
def insertSorted (le : Int → Int → Bool) (x : Int) : List Int → List Int
  | [] => [x]
  | y :: ys => if le x y then x :: y :: ys else y :: insertSorted le x ys

/-- Sorting of an index list by `le` (model of `sort.Slice`). -/
def sortIndices (le : Int → Int → Bool) (l : List Int) : List Int :=
  l.foldr (insertSorted le) []

/-- `Table.order` (main.go): version check (`order: table has changed`),
then return a sort of a copy of the indices by `less` on the referenced
records. -/
def Table.order {E : Type} (st : Table E) (tableIndex : List Int)
    (less : E → E → Bool) (version : Nat) : Except DBError (List Int) :=
  if st.version ≠ version then .error .orderTableChanged
  else .ok (sortIndices (lessIdx st.data less) tableIndex)

/-- `Table.Match` (main.go): collect the indices whose records `accept`,
capture the current version. -/
def Table.Match {E : Type} (st : Table E) (accept : E → Bool) : Result :=
  { tableIndex := (st.data.enum.filter (fun p => accept p.2)).map (fun p => (p.1 : Int)),
    version := st.version }

/-- `Table.First` (main.go): the first accepted record, deep-copied out. -/
def Table.First {E : Type} (st : Table E) (accept : E → Bool) : Option E :=
  st.data.find? accept

/-- `Table.All` (main.go) with a yield that always continues: the deep
copies handed to `yield`, in table order. -/
def Table.All {E : Type} (st : Table E) : List E :=
  st.data

/-- `Result.Size` (result.go). -/
def Result.Size (r : Result) : Nat :=
  r.tableIndex.length

/-- `Result.Get` (result.go): bounds check on `n`
(`item: index out of range`), then delegate to `Table.copy` with the
captured index and version. -/
def Result.Get {E : Type} (st : Table E) (r : Result) (n : Int) :
    Except DBError E :=
  match getI r.tableIndex n with
  | none => .error .itemIndexOutOfRange
  | some idx => Table.copy st idx r.version

/-- The yields of `Result.Iter` (result.go) when the caller's yield always
continues: each captured index is copied out; the loop stops after the
first error, which is surfaced through the yield. -/
def iterFrom {E : Type} (st : Table E) (version : Nat) :
    List Int → List (Except DBError E)
  | [] => []
  | n :: rest =>
      match Table.copy st n version with
      | .ok e => .ok e :: iterFrom st version rest
      | .error err => [.error err]

/-- `Result.Iter` (result.go): the sequence of `(element, error)` yields. -/
def Result.Iter {E : Type} (st : Table E) (r : Result) : List (Except DBError E) :=
  iterFrom st r.version r.tableIndex

/-- `Result.Delete` (result.go): read `tableIndex[n]` (no bounds check —
out of range panics), call `Table.delete` with it and the captured
version; on success advance the captured version, remove position `n`
from the index array and decrement every retained index greater than the
deleted table index. -/
def Result.Delete {E : Type} (cfg : Config E) (st : Table E) (r : Result)
    (n : Int) : Option (Table E × Result × Option DBError) :=
  match getI r.tableIndex n with
  | none => none
  | some tIdx =>
      match Table.delete cfg st tIdx r.version with
      | none => none
      | some (st', some err) => some (st', r, some err)
      | some (st', none) =>
          some (st',
            { version := r.version + 1,
              tableIndex :=
                ((r.tableIndex.take n.toNat ++ r.tableIndex.drop (n.toNat + 1)).map
                  (fun i => if tIdx < i then i - 1 else i)) },
            none)

/-- `Result.Update` (result.go): read `tableIndex[n]` (no bounds check —
out of range panics) and delegate to `Table.update`; the result's captured
version is not touched. -/
def Result.Update {E : Type} (cfg : Config E) (st : Table E) (r : Result)
    (n : Int) (e : E) : Option (Table E × Option DBError) :=
  match getI r.tableIndex n with
  | none => none
  | some tIdx => Table.update cfg st tIdx r.version e

/-- `Result.Order` (result.go): delegate to `Table.order` with the
captured version; on success the new result carries the sorted indices
and the same captured version. -/
def Result.Order {E : Type} (st : Table E) (r : Result)
    (less : E → E → Bool) : Except DBError Result :=
  match Table.order st r.tableIndex less r.version with
  | .error e => .error e
  | .ok so => .ok { tableIndex := so, version := r.version }

/-- Iterated `result.Delete(0)`: `k` successive deletions of the first
element, failing (`none`) if any step panics or returns an error. -/
def deleteSteps {E : Type} (cfg : Config E) :
    Nat → Table E → Result → Option (Table E × Result)
  | 0, st, r => some (st, r)
  | k + 1, st, r =>
      match Result.Delete cfg st r 0 with
      | some (st', r', none) => deleteSteps cfg k st' r'
      | _ => none

/-- A result is in sync with its table: captured version equal to the
table's, captured indices distinct and in range of the data.  This holds
for every result produced by `Table.Match` and is preserved by the
result's own `Delete`. -/
def ValidResult {E : Type} (st : Table E) (r : Result) : Prop :=
  r.version = st.version ∧ r.tableIndex.Nodup ∧
    ∀ i ∈ r.tableIndex, 0 ≤ i ∧ i < (st.data.length : Int)

/-- The persistence backend never fails. -/
def PersistOk {E : Type} (cfg : Config E) : Prop :=
  ∀ name items, cfg.persistErr name items = none

/-!
## The typed binary codec (serialize/serialize.go)

The codec walks Go values by reflection.  The embedding gives the universe
of supported runtime values (`SValue`) and target types (`SType`) and
translates `writeValue` / `readValue` case by case.  Floats are carried as
their IEEE bit patterns, exactly what the codec moves
(`math.Float64bits` / `math.Float64frombits`); strings as their UTF-8
bytes; bytes as `Nat`s below 256.  The interface (polymorphic) path and
the custom binary-marshaller path need the process-wide type registry and
reflective method calls and are outside the claims; they are not
modelled. -/

/-- A runtime value of a kind the codec's `writeValue` supports. -/
inductive SValue where
  | vBool (b : Bool)
  | vInt8 (n : Int)
  | vInt16 (n : Int)
  | vInt32 (n : Int)
  | vInt64 (n : Int)
  | vUInt8 (n : Nat)
  | vUInt16 (n : Nat)
  | vUInt32 (n : Nat)
  | vUInt64 (n : Nat)
  /-- native `int` on a 64-bit platform (`bits.UintSize == 64`) -/
  | vInt (n : Int)
  /-- native `uint` on a 64-bit platform -/
  | vUInt (n : Nat)
  /-- a `float32` carried as its IEEE-754 bit pattern -/
  | vFloat32 (bits : Nat)
  /-- a `float64` carried as its IEEE-754 bit pattern -/
  | vFloat64 (bits : Nat)
  /-- a string carried as its UTF-8 bytes -/
  | vString (bytes : List Nat)
  /-- struct fields in declaration order, each tagged settable or not -/
  | vStruct (fields : List (Bool × SValue))
  /-- a pointer, `none` = nil -/
  | vPointer (v : Option SValue)
  /-- a slice or fixed-size array -/
  | vArr (elems : List SValue)
  /-- a map, entries in iteration order (Go leaves the order unspecified) -/
  | vMap (pairs : List (SValue × SValue))
deriving Repr

/-- A decode target type (the reflected type `readValue` dispatches on). -/
inductive SType where
  | tBool
  | tInt8
  | tInt16
  | tInt32
  | tInt64
  | tUInt8
  | tUInt16
  | tUInt32
  | tUInt64
  | tInt
  | tUInt
  | tFloat32
  | tFloat64
  | tString
  | tStruct (fields : List (Bool × SType))
  | tPointer (t : SType)
  | tSlice (t : SType)
  | tArray (n : Nat) (t : SType)
  | tMap (k v : SType)
deriving Repr

/-- The 64-bit two's-complement image of an `int64` value (the bits
`writeIntBytes` receives). -/
def toU64 (n : Int) : Nat :=
  (n % (2 ^ 64 : Int)).toNat

/-- `n` little-endian bytes of `u` — the loop of `writeIntBytes`:
emit `byte(v & 0xff)`, then shift right by 8. -/
def leBytes (n : Nat) (u : Nat) : List Nat :=
  (List.range n).map (fun i => u / 256 ^ i % 256)

mutual

/-- `Serializer.writeValue` (serialize.go): one byte of type code, then the
payload, dispatching on the value's kind.  A non-nil pointer transparently
encodes its pointee; a nil pointer encodes as the invalid code 0 (its
`Elem()` is an invalid value). -/
def encodeValue : SValue → List Nat
  | .vBool b => [1, if b then 1 else 0]
  | .vInt8 n => 2 :: leBytes 1 (toU64 n)
  | .vInt16 n => 3 :: leBytes 2 (toU64 n)
  | .vInt32 n => 4 :: leBytes 4 (toU64 n)
  | .vInt64 n => 5 :: leBytes 8 (toU64 n)
  | .vUInt8 n => 6 :: leBytes 1 n
  | .vUInt16 n => 7 :: leBytes 2 n
  | .vUInt32 n => 8 :: leBytes 4 n
  | .vUInt64 n => 9 :: leBytes 8 n
  | .vInt n => 5 :: leBytes 8 (toU64 n)
  | .vUInt n => 9 :: leBytes 8 n
  | .vFloat32 bits => 10 :: leBytes 4 bits
  | .vFloat64 bits => 11 :: leBytes 8 bits
  | .vString bs => 12 :: (leBytes 4 bs.length ++ bs)
  | .vStruct fields => 13 :: encodeFields fields
  | .vPointer none => [0]
  | .vPointer (some v) => encodeValue v
  | .vArr elems => 14 :: (leBytes 4 elems.length ++ encodeList elems)
  | .vMap pairs => 15 :: (leBytes 4 pairs.length ++ encodePairs pairs)

/-- Element loop of `writeArray`. -/
def encodeList : List SValue → List Nat
  | [] => []
  | v :: rest => encodeValue v ++ encodeList rest

/-- Field loop of `writeStruct`: only settable (exported) fields are
written. -/
def encodeFields : List (Bool × SValue) → List Nat
  | [] => []
  | (settable, v) :: rest =>
      (if settable then encodeValue v else []) ++ encodeFields rest

/-- Entry loop of `writeMap`: key then value. -/
def encodePairs : List (SValue × SValue) → List Nat
  | [] => []
  | (k, v) :: rest => encodeValue k ++ encodeValue v ++ encodePairs rest

end

/-- `Serializer.Write` on a supported value: `writeValue(ValueOf(data), 0)`;
the `ptrDepth` argument is threaded through `writeValue` but never read,
so the model omits it. -/
def sWrite (v : SValue) : List Nat :=
  encodeValue v

/-- `expect` (serialize.go): read one byte, panic unless it equals the
expected type code. -/
def readExpect (code : Nat) (bytes : List Nat) : Option (List Nat) :=
  match bytes with
  | [] => none
  | b :: rest => if b = code then some rest else none

/-- Little-endian value of a byte list (`readRawInt`'s accumulation). -/
def leVal : List Nat → Nat
  | [] => 0
  | b :: rest => b % 256 + 256 * leVal rest

/-- `readRawInt` (serialize.go): consume `n` bytes, return their
little-endian value; too few bytes is a read panic. -/
def readRaw (n : Nat) (bytes : List Nat) : Option (Nat × List Nat) :=
  if bytes.length < n then none
  else some (leVal (bytes.take n), bytes.drop n)

/-- `readSizedInt` (serialize.go): expect the given code, then its raw
little-endian payload of `len` bytes. -/
def readSized (code : Nat) (len : Nat) (bytes : List Nat) :
    Option (Nat × List Nat) := do
  let rest ← readExpect code bytes
  readRaw len rest

/-- Reinterpret the `w` low bits as a two's-complement signed value — what
storing a raw unsigned word into a signed field of width `w` yields. -/
def toSigned (w : Nat) (r : Nat) : Int :=
  if r < 2 ^ (w - 1) then (r : Int) else (r : Int) - 2 ^ w

mutual

/-- `Serializer.readValue` (serialize.go): dispatch on the target's kind;
`none` is a panic inside the traversal (wrong type code, short input,
reflection fault), which `Read` recovers into a returned error.  `fuel`
only bounds the model's recursion depth; the Go traversal terminates on
its own, and the concrete evaluations below use ample fuel. -/
def decodeValue : Nat → SType → List Nat → Option (SValue × List Nat)
  | 0, _, _ => none
  | fuel + 1, t, bytes =>
      match t with
      | .tBool => do
          let rest ← readExpect 1 bytes
          match rest with
          | [] => none
          | b :: rest' => pure (.vBool (b != 0), rest')
      | .tInt8 => do
          let (r, rest) ← readSized 2 1 bytes
          pure (.vInt8 (toSigned 8 r), rest)
      | .tInt16 => do
          let (r, rest) ← readSized 3 2 bytes
          pure (.vInt16 (toSigned 16 r), rest)
      | .tInt32 => do
          let (r, rest) ← readSized 4 4 bytes
          pure (.vInt32 (toSigned 32 r), rest)
      | .tInt64 => do
          let (r, rest) ← readSized 5 8 bytes
          pure (.vInt64 (toSigned 64 r), rest)
      | .tUInt8 => do
          let (r, rest) ← readSized 6 1 bytes
          pure (.vUInt8 r, rest)
      | .tUInt16 => do
          let (r, rest) ← readSized 7 2 bytes
          pure (.vUInt16 r, rest)
      | .tUInt32 => do
          let (r, rest) ← readSized 8 4 bytes
          pure (.vUInt32 r, rest)
      | .tUInt64 => do
          let (r, rest) ← readSized 9 8 bytes
          pure (.vUInt64 r, rest)
      | .tInt =>
          -- readInt: one code byte; int32Code (4) → 4 raw bytes, stored via
          -- SetInt(int64(raw)) with NO sign extension; int64Code (5) → 8 raw
          -- bytes; any other code panics ("invalid int data").
          match bytes with
          | [] => none
          | c :: rest =>
              if c = 4 then do
                let (r, rest') ← readRaw 4 rest
                pure (.vInt (Int.ofNat r), rest')
              else if c = 5 then do
                let (r, rest') ← readRaw 8 rest
                pure (.vInt (toSigned 64 r), rest')
              else none
      | .tUInt =>
          -- readValue sends Uint targets to readInt too.  With code 4 or 5
          -- readInt reads the payload and then calls v.SetInt, which panics
          -- on a Uint reflect.Value; with any other code it panics with
          -- "invalid int data".  Decoding a native uint target always
          -- panics — in particular on the encoder's own output, which uses
          -- code 9 (uint64Code) for uint.
          match bytes with
          | [] => none
          | c :: rest =>
              if c = 4 then do
                let (_r, _rest') ← readRaw 4 rest
                none
              else if c = 5 then do
                let (_r, _rest') ← readRaw 8 rest
                none
              else none
      | .tFloat32 => do
          let (r, rest) ← readSized 10 4 bytes
          pure (.vFloat32 r, rest)
      | .tFloat64 => do
          let (r, rest) ← readSized 11 8 bytes
          pure (.vFloat64 r, rest)
      | .tString => do
          let rest ← readExpect 12 bytes
          let (l, rest') ← readRaw 4 rest
          if rest'.length < l then none
          else pure (.vString (rest'.take l), rest'.drop l)
      | .tPointer t' => do
          -- readValue allocates a zero pointee for a nil target and decodes
          -- into it.  There is no handling of the nil sentinel (code 0): such
          -- a byte fails inside the element decode.
          let (v, rest) ← decodeValue fuel t' bytes
          pure (.vPointer (some v), rest)
      | .tSlice t' => do
          let rest ← readExpect 14 bytes
          let (l, rest') ← readRaw 4 rest
          let (vs, rest'') ← decodeMany fuel t' l rest'
          pure (.vArr vs, rest'')
      | .tArray n t' => do
          let rest ← readExpect 14 bytes
          let (l, rest') ← readRaw 4 rest
          -- readArray loops i < l into v.Index(i): l beyond the array's
          -- length panics; shorter input leaves the tail at its zero value.
          if n < l then none
          else do
            let (vs, rest'') ← decodeMany fuel t' l rest'
            pure (.vArr (vs ++ List.replicate (n - l) (zeroOf t')), rest'')
      | .tMap kt vt => do
          let rest ← readExpect 15 bytes
          let (l, rest') ← readRaw 4 rest
          let (ps, rest'') ← decodePairs fuel kt vt l rest'
          pure (.vMap ps, rest'')
      | .tStruct fields => do
          let rest ← readExpect 13 bytes
          let (fs, rest') ← decodeFields fuel fields rest
          pure (.vStruct fs, rest')

/-- Element loop of `readSlice` / `readArray`. -/
def decodeMany : Nat → SType → Nat → List Nat → Option (List SValue × List Nat)
  | _, _, 0, bytes => some ([], bytes)
  | fuel, t, n + 1, bytes => do
      let (v, rest) ← decodeValue fuel t bytes
      let (vs, rest') ← decodeMany fuel t n rest
      pure (v :: vs, rest')

/-- Entry loop of `readMap`: key then value, `l` times. -/
def decodePairs : Nat → SType → SType → Nat → List Nat →
    Option (List (SValue × SValue) × List Nat)
  | _, _, _, 0, bytes => some ([], bytes)
  | fuel, kt, vt, n + 1, bytes => do
      let (k, r1) ← decodeValue fuel kt bytes
      let (v, r2) ← decodeValue fuel vt r1
      let (ps, r3) ← decodePairs fuel kt vt n r2
      pure ((k, v) :: ps, r3)

/-- Field loop of `readStruct`: settable fields are decoded, non-settable
fields keep the fresh target's zero value. -/
def decodeFields : Nat → List (Bool × SType) → List Nat →
    Option (List (Bool × SValue) × List Nat)
  | _, [], bytes => some ([], bytes)
  | fuel, (settable, t) :: rest, bytes =>
      if settable then do
        let (v, r1) ← decodeValue fuel t bytes
        let (fs, r2) ← decodeFields fuel rest r1
        pure ((true, v) :: fs, r2)
      else do
        let (fs, r2) ← decodeFields fuel rest bytes
        pure ((false, zeroOf t) :: fs, r2)

/-- The zero value of a target type (a fresh decode target before any
field is written). -/
def zeroOf : SType → SValue
  | .tBool => .vBool false
  | .tInt8 => .vInt8 0
  | .tInt16 => .vInt16 0
  | .tInt32 => .vInt32 0
  | .tInt64 => .vInt64 0
  | .tUInt8 => .vUInt8 0
  | .tUInt16 => .vUInt16 0
  | .tUInt32 => .vUInt32 0
  | .tUInt64 => .vUInt64 0
  | .tInt => .vInt 0
  | .tUInt => .vUInt 0
  | .tFloat32 => .vFloat32 0
  | .tFloat64 => .vFloat64 0
  | .tString => .vString []
  | .tStruct fields => .vStruct (zeroFields fields)
  | .tPointer _ => .vPointer none
  | .tSlice _ => .vArr []
  | .tArray n t => .vArr (List.replicate n (zeroOf t))
  | .tMap _ _ => .vMap []

/-- Zero values of a field list. -/
def zeroFields : List (Bool × SType) → List (Bool × SValue)
  | [] => []
  | (b, t) :: rest => (b, zeroOf t) :: zeroFields rest

end

/-- `Serializer.Read` into a zero target of type `t`: any panic inside the
traversal is recovered into a returned error (`none` here). -/
def sRead (fuel : Nat) (t : SType) (bytes : List Nat) :
    Option (SValue × List Nat) :=
  decodeValue fuel t bytes

/-!
## The Monthly name provider (persist.go)
-/

/-- A calendar date as far as the Monthly provider reads it: the `Year()`
and `Month()` (1–12) components of a `time.Time`. -/
structure Date where
  year : Int
  month : Nat
deriving DecidableEq, Repr

/-- The `monthly` strategy struct (persist.go).  Its Go field named after
the file-name stem prefix is called `pfx` here. -/
structure MonthlyProvider (E : Type) where
  dateFunc : E → Date
  pfx : String

/-- `Monthly(prefix, dateFunc)` (persist.go): an underscore is appended to
the stem only when it is nonempty, at construction time. -/
def mkMonthly {E : Type} (p : String) (dateFunc : E → Date) : MonthlyProvider E :=
  { dateFunc := dateFunc, pfx := if p ≠ "" then p ++ "_" else p }

/-- `monthly.SameFile` (persist.go): same year and same calendar month. -/
def MonthlyProvider.SameFile {E : Type} (m : MonthlyProvider E) (e1 e2 : E) : Bool :=
  let d1 := m.dateFunc e1
  let d2 := m.dateFunc e2
  d1.year == d2.year && d1.month == d2.month

/-- `monthly.ToFile` (persist.go): the stem, then `Itoa(Year())`, then
an underscore and the month, zero-padded to two digits when below 10. -/
def MonthlyProvider.ToFile {E : Type} (m : MonthlyProvider E) (e : E) : String :=
  let d := m.dateFunc e
  if d.month < 10 then m.pfx ++ toString d.year ++ "_0" ++ toString d.month
  else m.pfx ++ toString d.year ++ "_" ++ toString d.month

/-!
## Concrete fixtures used by witnesses and counterexamples
-/

/-- A table of `Int` records, no order, no persistence backend. -/
def cfgPlain : Config Int :=
  { orderLess := none, sameFile := fun _ _ => true, toFile := fun _ => "db",
    persistOn := false, persistErr := fun _ _ => none }

/-- Like `cfgPlain` but with the primary order `<`. -/
def cfgOrd : Config Int :=
  { cfgPlain with orderLess := some (fun a b => decide (a < b)) }

/-- A one-record table at version 0. -/
def st5 : Table Int := { data := [5], version := 0, journal := [] }

/-- A three-record ordered table at version 0. -/
def st159 : Table Int := { data := [1, 5, 9], version := 0, journal := [] }

/-!
## Shared helper lemmas
-/

theorem getI_eq_none {α : Type} (l : List α) (i : Int)
    (h : i < 0 ∨ (l.length : Int) ≤ i) : getI l i = none := by
  unfold getI
  by_cases h0 : 0 ≤ i
  · rw [if_pos h0]
    exact List.get?_eq_none.mpr (by omega)
  · rw [if_neg h0]

theorem getI_eq_some {α : Type} (l : List α) (i : Int)
    (h0 : 0 ≤ i) (h1 : i < (l.length : Int)) :
    getI l i = some (l.get ⟨i.toNat, by omega⟩) := by
  unfold getI
  rw [if_pos h0]
  exact List.get?_eq_get (by omega)

theorem getI_mem {α : Type} {l : List α} {i : Int} {x : α}
    (h : getI l i = some x) : x ∈ l := by
  unfold getI at h
  split at h
  · exact List.get?_mem h
  · exact absurd h (by simp)

theorem getI_bounds {α : Type} {l : List α} {i : Int} {x : α}
    (h : getI l i = some x) : 0 ≤ i ∧ i < (l.length : Int) := by
  unfold getI at h
  split at h
  · obtain ⟨hlt, _⟩ := List.get?_eq_some.mp h
    omega
  · exact absurd h (by simp)

theorem persistItem_components {E : Type} (cfg : Config E) (st : Table E) (e : E)
    (hper : PersistOk cfg) :
    (persistItem cfg st e).2 = none ∧
    (persistItem cfg st e).1.data = st.data ∧
    (persistItem cfg st e).1.version = st.version := by
  unfold PersistOk at hper
  unfold persistItem
  split
  · simp [hper]
  · exact ⟨rfl, rfl, rfl⟩

theorem persistItem_not_insert_err {E : Type} (cfg : Config E) (st : Table E)
    (e : E) : (persistItem cfg st e).2 ≠ some DBError.impossibleInsertState := by
  unfold persistItem
  split
  · cases hpe : cfg.persistErr (cfg.toFile e)
        (st.data.filter fun en => cfg.sameFile en e) <;> simp [hpe]
  · simp

theorem persistItem_preserves_version {E : Type} (cfg : Config E) (st : Table E)
    (e : E) : (persistItem cfg st e).1.version = st.version := by
  unfold persistItem
  split
  · cases hpe : cfg.persistErr (cfg.toFile e)
        (st.data.filter fun en => cfg.sameFile en e) <;> simp [hpe]
  · rfl

theorem persistItem_off {E : Type} (cfg : Config E) (st : Table E) (e : E)
    (h : cfg.persistOn = false) : persistItem cfg st e = (st, none) := by
  unfold persistItem
  rw [h]
  simp

theorem persistItem_eq_version {E : Type} {cfg : Config E} {st st' : Table E}
    {e : E} {err : Option DBError} (h : persistItem cfg st e = (st', err)) :
    st'.version = st.version := by
  have hv := persistItem_preserves_version cfg st e
  rw [h] at hv
  exact hv

/-!
## Claim theorems
-/

/-- C7 (confirmed): encoding the struct with int32 field `A = 1025` followed
by bool field `B = true` (handed to `Write` by pointer, as the repository's
`TestStructWrite` does) produces exactly the byte sequence
`0D 04 01 04 00 00 01 01` — struct code, int32 code, 1025 little-endian in
four bytes, bool code, 1. -/
theorem struct_encoding_bytes :
    sWrite (.vPointer (some (.vStruct [(true, .vInt32 1025), (true, .vBool true)]))) =
      [0x0D, 0x04, 0x01, 0x04, 0x00, 0x00, 0x01, 0x01] := by
  rfl

/-- C6 (code bug): the codec does not round-trip a native `uint`.
`Serializer.Write` encodes `uint` with type code 9 (`uint64Code`), but
`Serializer.Read`'s `readInt` — to which `readValue` dispatches both `Int`
and `Uint` targets — accepts only codes 4 (`int32Code`) and 5 (`int64Code`)
and panics with "invalid int data", so `Read` returns an error instead of
the value.  The repository's own `TestRWInt` round-trips a struct with
field `F uint = 6` and fails on it. -/
theorem uint_roundtrip_decode_fails :
    sWrite (.vUInt 6) = [9, 6, 0, 0, 0, 0, 0, 0, 0] ∧
    sRead 16 .tUInt (sWrite (.vUInt 6)) = none := by
  refine ⟨rfl, ?_⟩
  show decodeValue (15 + 1) .tUInt [9, 6, 0, 0, 0, 0, 0, 0, 0] = none
  simp [decodeValue]

/-- C10 (confirmed): whenever `Insert` returns the "impossible insert
state" error, the table's record sequence, version counter and journal of
persisted writes are all exactly as before: the failed insert has no
observable effect. -/
theorem impossible_insert_leaves_state_unchanged {E : Type}
    (cfg : Config E) (st : Table E) (e : E)
    (h : (Table.Insert cfg st e).2 = some .impossibleInsertState) :
    (Table.Insert cfg st e).1 = st := by
  unfold Table.Insert at h ⊢
  rcases hcfg : cfg.orderLess with _ | less
  · simp only [hcfg] at h
    exact absurd h (persistItem_not_insert_err _ _ _)
  · simp only [hcfg] at h ⊢
    rcases hlast : st.data.getLast? with _ | last
    · simp only [hlast] at h
      exact absurd h (persistItem_not_insert_err _ _ _)
    · simp only [hlast] at h ⊢
      by_cases hl : less last e
      · rw [if_pos hl] at h
        exact absurd h (persistItem_not_insert_err _ _ _)
      · rw [if_neg hl] at h ⊢
        rcases hidx : findInsertPos less e st.data with _ | i
        · rfl
        · rw [hidx] at h
          exact absurd h (persistItem_not_insert_err _ _ _)

/-- C10 witness. -/
theorem impossible_insert_leaves_state_unchanged_witness :
    (Table.Insert cfgOrd st5 5).1 = st5 :=
  impossible_insert_leaves_state_unchanged cfgOrd st5 5 (by decide)

/-- C1 counterexample: on the one-record table `[5]` at version 0, the
update of slot 0 to the value 7 succeeds (no error) yet leaves the version
counter at 0 — `Table.update` contains no `version++`, so a successful
update does not increment the version by one as the claim states. -/
theorem update_no_version_increment_cex :
    Table.update cfgPlain st5 0 0 7 =
      some ({ data := [7], version := 0, journal := [] }, none) ∧
    ({ data := [7], version := 0, journal := [] } : Table Int).version ≠
      st5.version + 1 := by
  exact ⟨rfl, by decide⟩

/-- C1 amended: a successful `Insert` and a successful `delete` increment
the version counter by exactly one; a successful `update` leaves the
version counter unchanged (it never increments it).  Non-mutating
operations (`Size`, `Match`, `First`, `All`, `copy`, `order`) are read-only
functions of the state in this embedding and touch no version. -/
theorem version_increment_amended {E : Type} (cfg : Config E) (st : Table E) :
    (∀ e st', Table.Insert cfg st e = (st', none) →
        st'.version = st.version + 1) ∧
    (∀ index v st', Table.delete cfg st index v = some (st', none) →
        st'.version = st.version + 1) ∧
    (∀ index v e st', Table.update cfg st index v e = some (st', none) →
        st'.version = st.version) := by
  refine ⟨?_, ?_, ?_⟩
  · intro e st' h
    unfold Table.Insert at h
    rcases hcfg : cfg.orderLess with _ | less
    · simp only [hcfg] at h
      exact persistItem_eq_version h
    · simp only [hcfg] at h
      rcases hlast : st.data.getLast? with _ | last
      · simp only [hlast] at h
        exact persistItem_eq_version h
      · simp only [hlast] at h
        by_cases hl : less last e
        · rw [if_pos hl] at h
          exact persistItem_eq_version h
        · rw [if_neg hl] at h
          rcases hidx : findInsertPos less e st.data with _ | i
          · rw [hidx] at h
            simp at h
          · rw [hidx] at h
            exact persistItem_eq_version h
  · intro index v st' h
    unfold Table.delete at h
    by_cases hv : st.version ≠ v
    · rw [if_pos hv] at h
      simp at h
    · rw [if_neg hv] at h
      rcases hg : getI st.data index with _ | e2
      · rw [hg] at h
        simp at h
      · rw [hg] at h
        exact persistItem_eq_version (Option.some_inj.mp h)
  · intro index v e st' h
    unfold Table.update at h
    by_cases hv : st.version ≠ v
    · rw [if_pos hv] at h
      simp at h
    · rw [if_neg hv] at h
      rcases hc : orderChecks cfg st index e with _ | ok
      · rw [hc] at h
        simp at h
      · simp only [hc] at h
        by_cases hok : ok = true
        · rw [if_pos hok] at h
          rcases hg : getI st.data index with _ | e2
          · rw [hg] at h
            simp at h
          · rw [hg] at h
            have h2 : persistItem cfg { st with data := st.data.set index.toNat e } e =
                (st', none) := Option.some_inj.mp h
            have h3 := persistItem_eq_version h2
            exact h3
        · rw [if_neg hok] at h
          simp at h

/-- C1 witness: the amended theorem applied to the concrete insertion of 7
into the one-record table `[5]` at version 0. -/
theorem version_increment_amended_witness :
    ({ data := [5, 7], version := 1, journal := [] } : Table Int).version =
      st5.version + 1 :=
  (version_increment_amended cfgPlain st5).1 7
    { data := [5, 7], version := 1, journal := [] } (by decide)

/-- `findInsertPos` finds the leftmost position whose element the new
record is less than: the element there satisfies the comparison and every
earlier element does not. -/
theorem findInsertPos_leftmost {E : Type} (less : E → E → Bool) (e : E) :
    ∀ (l : List E) (i : Nat), findInsertPos less e l = some i →
      ∃ x, l.get? i = some x ∧ less e x = true ∧
        ∀ j, j < i → ∀ y, l.get? j = some y → less e y = false := by
  intro l
  induction l with
  | nil =>
      intro i h
      simp [findInsertPos] at h
  | cons a as ih =>
      intro i h
      simp only [findInsertPos] at h
      by_cases hp : less e a = true
      · rw [if_pos hp] at h
        obtain rfl : (0 : Nat) = i := Option.some_inj.mp h
        exact ⟨a, rfl, hp, fun j hj => absurd hj (by omega)⟩
      · rw [if_neg hp] at h
        obtain ⟨i', hi', rfl⟩ := Option.map_eq_some'.mp h
        obtain ⟨x, hx, hpx, hbefore⟩ := ih i' hi'
        refine ⟨x, hx, hpx, ?_⟩
        intro j hj y hy
        cases j with
        | zero =>
            have hya : y = a := by
              simpa using hy.symm
            have hfa : less e a = false := by
              cases hba : less e a
              · rfl
              · exact absurd hba hp
            rw [hya]
            exact hfa
        | succ j' =>
            exact hbefore j' (by omega) y hy

/-- C3 counterexample: on the ordered table `[5]`, inserting the record 5 —
equal (neither less) to the current maximum — does not succeed: it returns
the error "impossible insert state" and leaves the table unchanged,
contradicting the claim that such an insert appends and succeeds. -/
theorem insert_equal_max_fails_cex :
    Table.Insert cfgOrd st5 5 = (st5, some .impossibleInsertState) := by
  rfl

/-- C3 amended: with a configured order, `Insert(e)` deep-copies `e` and
appends the copy when the table is empty or when `less(last, e)` holds;
otherwise it places the copy at the leftmost position `p` with
`less(e, data[p])`, shifting the tail right by one.  If `e` is not less
than any element AND the last element is not less than `e` (for example
when `e` equals the current maximum), `Insert` fails with
"impossible insert state" and changes nothing. -/
theorem insert_placement_amended {E : Type} (cfg : Config E) (less : E → E → Bool)
    (hless : cfg.orderLess = some less) (hpersist : cfg.persistOn = false)
    (st : Table E) (e : E) :
    (st.data = [] →
        Table.Insert cfg st e =
          ({ st with data := [e], version := st.version + 1 }, none)) ∧
    (∀ last, st.data.getLast? = some last → less last e = true →
        Table.Insert cfg st e =
          ({ st with data := st.data ++ [e], version := st.version + 1 }, none)) ∧
    (∀ last i, st.data.getLast? = some last → less last e = false →
        findInsertPos less e st.data = some i →
        Table.Insert cfg st e =
          ({ st with data := st.data.take i ++ e :: st.data.drop i,
                     version := st.version + 1 }, none)) ∧
    (∀ last, st.data.getLast? = some last → less last e = false →
        findInsertPos less e st.data = none →
        Table.Insert cfg st e = (st, some .impossibleInsertState)) ∧
    (∀ i, findInsertPos less e st.data = some i →
        ∃ x, st.data.get? i = some x ∧ less e x = true ∧
          ∀ j, j < i → ∀ y, st.data.get? j = some y → less e y = false) := by
  refine ⟨?_, ?_, ?_, ?_, ?_⟩
  · intro h
    have hl : st.data.getLast? = none := by rw [h]; rfl
    unfold Table.Insert
    simp only [hless, hl]
    rw [persistItem_off _ _ _ hpersist, h]
    simp
  · intro last hlast hl
    unfold Table.Insert
    simp only [hless, hlast]
    rw [if_pos hl, persistItem_off _ _ _ hpersist]
  · intro last i hlast hl hidx
    unfold Table.Insert
    simp only [hless, hlast]
    rw [if_neg (by simp [hl])]
    simp only [hidx]
    rw [persistItem_off _ _ _ hpersist]
  · intro last hlast hl hidx
    unfold Table.Insert
    simp only [hless, hlast]
    rw [if_neg (by simp [hl])]
    simp only [hidx]
  · intro i hidx
    exact findInsertPos_leftmost _ _ _ _ hidx

/-- C3 witness: inserting 4 into the ordered table `[1, 5, 9]` places it at
position 1, the leftmost position whose element 4 is less than. -/
theorem insert_placement_amended_witness :
    Table.Insert cfgOrd st159 4 =
      ({ data := [1, 4, 5, 9], version := 1, journal := [] }, none) := by
  have h := (insert_placement_amended cfgOrd (fun a b => decide (a < b))
      rfl rfl st159 4).2.2.1 9 1 (by decide) (by decide) (by decide)
  exact h.trans (by decide)

/-- C8 counterexample: with the empty prefix the Monthly provider names the
March-2024 group "2024_03" — it does not prepend an underscore, so the name
is not of the claimed shape `p ++ "_" ++ year ++ "_" ++ month` (which for
`p = ""` would be "_2024_03"). -/
theorem monthly_empty_prefix_cex :
    (mkMonthly "" (fun d : Date => d)).ToFile ⟨2024, 3⟩ = "2024_03" ∧
    (mkMonthly "" (fun d : Date => d)).ToFile ⟨2024, 3⟩ ≠ "_2024_03" := by
  constructor
  · rfl
  · decide

/-- C8 amended: for a NONEMPTY prefix `p` the Monthly group name is
`p ++ "_" ++ <decimal year> ++ "_" ++ <two-digit zero-padded month>`; for
the empty prefix it is `<year> ++ "_" ++ <month>` without a leading
underscore.  For every prefix, `SameFile a b` implies
`ToFile a = ToFile b`. -/
theorem monthly_group_name_amended {E : Type} (p : String) (dateFunc : E → Date)
    (e a b : E) :
    (p ≠ "" → (mkMonthly p dateFunc).ToFile e =
        p ++ "_" ++ toString (dateFunc e).year ++ "_" ++
          (if (dateFunc e).month < 10 then "0" ++ toString (dateFunc e).month
           else toString (dateFunc e).month)) ∧
    (p = "" → (mkMonthly p dateFunc).ToFile e =
        toString (dateFunc e).year ++ "_" ++
          (if (dateFunc e).month < 10 then "0" ++ toString (dateFunc e).month
           else toString (dateFunc e).month)) ∧
    ((mkMonthly p dateFunc).SameFile a b = true →
        (mkMonthly p dateFunc).ToFile a = (mkMonthly p dateFunc).ToFile b) := by
  refine ⟨?_, ?_, ?_⟩
  · intro hp
    simp only [mkMonthly, MonthlyProvider.ToFile, if_pos hp]
    have h1 : ∀ s : String, "_" ++ ("0" ++ s) = "_0" ++ s := fun s => by
      rw [← String.append_assoc]; rfl
    by_cases hm : (dateFunc e).month < 10 <;>
      simp [hm, h1, String.append_assoc]
  · intro hp
    subst hp
    simp only [mkMonthly, MonthlyProvider.ToFile, ne_eq, not_true_eq_false,
      if_false]
    have h1 : ∀ s : String, "_" ++ ("0" ++ s) = "_0" ++ s := fun s => by
      rw [← String.append_assoc]; rfl
    have he : ∀ s : String, "" ++ s = s := fun _ => rfl
    by_cases hm : (dateFunc e).month < 10 <;>
      simp [hm, h1, he, String.append_assoc]
  · intro hs
    simp only [MonthlyProvider.SameFile, Bool.and_eq_true, beq_iff_eq] at hs
    obtain ⟨hy, hm⟩ := hs
    simp only [MonthlyProvider.ToFile]
    rw [hy, hm]

/-- C8 witness: the amended theorem at prefix "test" and March 2024 gives
the name "test_2024_03". -/
theorem monthly_group_name_amended_witness :
    (mkMonthly "test" (fun d : Date => d)).ToFile ⟨2024, 3⟩ =
      "test" ++ "_" ++ toString (2024 : Int) ++ "_" ++
        (if (3 : Nat) < 10 then "0" ++ toString (3 : Nat)
         else toString (3 : Nat)) :=
  (monthly_group_name_amended "test" (fun d => d)
    ⟨2024, 3⟩ ⟨2024, 3⟩ ⟨2024, 3⟩).1 (by decide)

theorem getI_natCast {α : Type} (l : List α) (d : α) (k : Nat)
    (hk : k < l.length) : getI l (k : Int) = some (l.getD k d) := by
  have ht : ((k : Int)).toNat = k := by omega
  unfold getI
  rw [if_pos (by omega), ht, List.get?_eq_get hk, List.getD_eq_get l d hk]

/-- C5 (confirmed): with a configured order and a matching version, `update`
of an in-range slot `j` verifies `less(data[j-1], e)` and
`less(e, data[j+1])`, each check waived at its boundary; if the combined
check fails it returns "update: order violation" and leaves the table
(sequence, version, journal) exactly as before, otherwise it deep-copies
`e` over slot `j` in place.  (The `getD` default is irrelevant: each access
is within bounds when its disjunct is consulted.) -/
theorem update_order_violation_atomic {E : Type} (cfg : Config E)
    (less : E → E → Bool) (hless : cfg.orderLess = some less)
    (hpersist : cfg.persistOn = false) (st : Table E) (v : Nat)
    (hv : st.version = v) (j : Nat) (hj : j < st.data.length) (e : E) :
    ((¬ ((j = 0 ∨ less (st.data.getD (j - 1) e) e = true) ∧
         (j = st.data.length - 1 ∨ less e (st.data.getD (j + 1) e) = true))) →
       Table.update cfg st (j : Int) v e =
         some (st, some .updateOrderViolation)) ∧
    (((j = 0 ∨ less (st.data.getD (j - 1) e) e = true) ∧
      (j = st.data.length - 1 ∨ less e (st.data.getD (j + 1) e) = true)) →
       Table.update cfg st (j : Int) v e =
         some ({ st with data := st.data.set j e }, none)) := by
  have hb1 : (if (j : Int) = 0 then some true
      else (getI st.data ((j : Int) - 1)).map (fun a => less a e)) =
      some (if j = 0 then true else less (st.data.getD (j - 1) e) e) := by
    by_cases h0 : j = 0
    · subst h0
      simp
    · rw [if_neg (by omega), if_neg h0]
      have hcast : ((j : Int) - 1) = ((j - 1 : Nat) : Int) := by omega
      rw [hcast, getI_natCast st.data e (j - 1) (by omega)]
      simp
  have hb2 : (if (j : Int) = (st.data.length : Int) - 1 then some true
      else (getI st.data ((j : Int) + 1)).map (fun b => less e b)) =
      some (if j = st.data.length - 1 then true
            else less e (st.data.getD (j + 1) e)) := by
    by_cases h1 : j = st.data.length - 1
    · rw [if_pos (by omega), if_pos h1]
    · rw [if_neg (by omega), if_neg h1]
      have hcast : ((j : Int) + 1) = ((j + 1 : Nat) : Int) := by omega
      rw [hcast, getI_natCast st.data e (j + 1) (by omega)]
      simp
  have hoc : orderChecks cfg st (j : Int) e =
      some ((if j = 0 then true else less (st.data.getD (j - 1) e) e) &&
            (if j = st.data.length - 1 then true
             else less e (st.data.getD (j + 1) e))) := by
    simp only [orderChecks, hless, hb1, hb2]
  have hiff : ((if j = 0 then true else less (st.data.getD (j - 1) e) e) &&
      (if j = st.data.length - 1 then true
       else less e (st.data.getD (j + 1) e))) = true ↔
      ((j = 0 ∨ less (st.data.getD (j - 1) e) e = true) ∧
       (j = st.data.length - 1 ∨ less e (st.data.getD (j + 1) e) = true)) := by
    rw [Bool.and_eq_true]
    constructor
    · rintro ⟨h1, h2⟩
      constructor
      · by_cases h0 : j = 0
        · exact Or.inl h0
        · rw [if_neg h0] at h1
          exact Or.inr h1
      · by_cases hl : j = st.data.length - 1
        · exact Or.inl hl
        · rw [if_neg hl] at h2
          exact Or.inr h2
    · rintro ⟨h1, h2⟩
      constructor
      · rcases h1 with h0 | h1
        · rw [if_pos h0]
        · by_cases h0 : j = 0
          · rw [if_pos h0]
          · rw [if_neg h0]
            exact h1
      · rcases h2 with hl | h2
        · rw [if_pos hl]
        · by_cases hl : j = st.data.length - 1
          · rw [if_pos hl]
          · rw [if_neg hl]
            exact h2
  constructor
  · intro hbad
    have hfalse : ((if j = 0 then true else less (st.data.getD (j - 1) e) e) &&
        (if j = st.data.length - 1 then true
         else less e (st.data.getD (j + 1) e))) = false := by
      rcases Bool.eq_false_or_eq_true ((if j = 0 then true
          else less (st.data.getD (j - 1) e) e) &&
          (if j = st.data.length - 1 then true
           else less e (st.data.getD (j + 1) e))) with h | h
      · exact absurd (hiff.mp h) hbad
      · exact h
    simp only [Table.update, hoc]
    rw [if_neg (by omega), hfalse]
    simp
  · intro hgood
    have htrue := hiff.mpr hgood
    simp only [Table.update, hoc]
    rw [if_neg (by omega), htrue]
    have ht : ((j : Int)).toNat = j := by omega
    have hpo : ∀ s : Table E, persistItem cfg s e = (s, none) := fun s =>
      persistItem_off cfg s e hpersist
    rw [getI_natCast st.data e j hj]
    simp [ht, hpo]

/-- C5 witness: updating slot 1 of the ordered table `[1, 5, 9]` to 100
violates `less(100, data[2]) = 100 < 9` and is rejected with the order
violation error, leaving the table unchanged. -/
theorem update_order_violation_atomic_witness :
    Table.update cfgOrd st159 1 0 100 =
      some (st159, some DBError.updateOrderViolation) :=
  (update_order_violation_atomic cfgOrd (fun a b => decide (a < b)) rfl rfl
    st159 0 rfl 1 (by decide) 100).1 (by decide)

theorem orderChecks_isSome {E : Type} (cfg : Config E) (st : Table E)
    (index : Int) (e : E) (h0 : 0 ≤ index)
    (hl : index < (st.data.length : Int)) :
    ∃ b, orderChecks cfg st index e = some b := by
  rcases hcfg : cfg.orderLess with _ | less
  · simp [orderChecks, hcfg]
  · simp only [orderChecks, hcfg]
    have h1 : ∃ b1, (if index = 0 then some true
        else (getI st.data (index - 1)).map (fun a => less a e)) = some b1 := by
      by_cases hi0 : index = 0
      · rw [if_pos hi0]
        exact ⟨true, rfl⟩
      · rw [if_neg hi0, getI_eq_some st.data (index - 1) (by omega) (by omega)]
        exact ⟨_, rfl⟩
    obtain ⟨b1, hb1⟩ := h1
    simp only [hb1]
    have h2 : ∃ b2, (if index = (st.data.length : Int) - 1 then some true
        else (getI st.data (index + 1)).map (fun b => less e b)) = some b2 := by
      by_cases hil : index = (st.data.length : Int) - 1
      · rw [if_pos hil]
        exact ⟨true, rfl⟩
      · rw [if_neg hil, getI_eq_some st.data (index + 1) (by omega) (by omega)]
        exact ⟨_, rfl⟩
    obtain ⟨b2, hb2⟩ := h2
    simp only [hb2]
    exact ⟨_, rfl⟩

theorem tdelete_ne_none {E : Type} (cfg : Config E) (st : Table E)
    (index : Int) (v : Nat)
    (h : v = st.version → 0 ≤ index ∧ index < (st.data.length : Int)) :
    Table.delete cfg st index v ≠ none := by
  unfold Table.delete
  by_cases hv : st.version ≠ v
  · rw [if_pos hv]
    simp
  · rw [if_neg hv]
    obtain ⟨h0, hl⟩ := h (by omega)
    rw [getI_eq_some st.data index h0 hl]
    simp

theorem tupdate_ne_none {E : Type} (cfg : Config E) (st : Table E)
    (index : Int) (v : Nat) (e : E)
    (h : v = st.version → 0 ≤ index ∧ index < (st.data.length : Int)) :
    Table.update cfg st index v e ≠ none := by
  unfold Table.update
  by_cases hv : st.version ≠ v
  · rw [if_pos hv]
    simp
  · rw [if_neg hv]
    obtain ⟨h0, hl⟩ := h (by omega)
    obtain ⟨b, hb⟩ := orderChecks_isSome cfg st index e h0 hl
    simp only [hb]
    by_cases hok : b = true
    · rw [if_pos hok, getI_eq_some st.data index h0 hl]
      simp
    · rw [if_neg hok]
      simp

/-- C9 (confirmed): `Result.Get` bounds-checks its argument and returns the
"index out of range" error for any out-of-range `n`, while `Result.Delete`
and `Result.Update` index the captured array directly: for `n` outside
`[0, Size)` they panic (`none`); inside that range (on a valid result) they
never panic. -/
theorem result_bounds_check_contrast {E : Type} (cfg : Config E)
    (st : Table E) (r : Result) (e : E) :
    (∀ n : Int, (n < 0 ∨ (r.tableIndex.length : Int) ≤ n) →
        Result.Get st r n = .error .itemIndexOutOfRange ∧
        Result.Delete cfg st r n = none ∧
        Result.Update cfg st r n e = none) ∧
    (ValidResult st r → ∀ n : Int, 0 ≤ n → n < (r.tableIndex.length : Int) →
        Result.Delete cfg st r n ≠ none ∧
        Result.Update cfg st r n e ≠ none) := by
  constructor
  · intro n hn
    have hg : getI r.tableIndex n = none := getI_eq_none _ _ hn
    exact ⟨by simp [Result.Get, hg], by simp [Result.Delete, hg],
      by simp [Result.Update, hg]⟩
  · rintro ⟨hver, hnd, hbound⟩ n h0 hlen
    obtain ⟨tIdx, hg⟩ : ∃ t, getI r.tableIndex n = some t :=
      ⟨_, getI_eq_some r.tableIndex n h0 hlen⟩
    have hmem := getI_mem hg
    obtain ⟨ht0, htl⟩ := hbound tIdx hmem
    constructor
    · simp only [Result.Delete, hg]
      have hd := tdelete_ne_none cfg st tIdx r.version (fun _ => ⟨ht0, htl⟩)
      rcases hres : Table.delete cfg st tIdx r.version with _ | ⟨st', err⟩
      · exact absurd hres hd
      · rcases err with _ | err <;> simp [hres]
    · simp only [Result.Update, hg]
      exact tupdate_ne_none cfg st tIdx r.version e (fun _ => ⟨ht0, htl⟩)

/-- C9 witness: deleting position 5 of a one-element result panics. -/
theorem result_bounds_check_contrast_witness :
    Result.Delete cfgPlain st5 { tableIndex := [0], version := 0 } 5 = none :=
  ((result_bounds_check_contrast cfgPlain st5
    { tableIndex := [0], version := 0 } 0).1 5 (by decide)).2.1

/-- C2 counterexample: a Result captured at version 0 over the one-record
table `[5]`; another Result's `Delete` empties the table and moves it to
version 1.  `Get(0)` on the stale Result then returns the
"copy: index out of range" error — NOT the "table has changed" staleness
error the claim promises for every operation (the bounds check in
`Table.copy` runs before the version check and fires first because the
table shrank). -/
theorem staleness_error_flavor_cex :
    Result.Delete cfgPlain st5 { tableIndex := [0], version := 0 } 0 =
      some ({ data := [], version := 1, journal := [] },
        { tableIndex := [], version := 1 }, none) ∧
    ({ data := [], version := 1, journal := [] } : Table Int).version =
      ({ tableIndex := [0], version := 0 } : Result).version + 1 ∧
    Result.Get ({ data := [], version := 1, journal := [] } : Table Int)
      { tableIndex := [0], version := 0 } 0 = .error .copyIndexOutOfRange ∧
    Result.Get ({ data := [], version := 1, journal := [] } : Table Int)
      { tableIndex := [0], version := 0 } 0 ≠ .error .copyTableChanged := by
  exact ⟨by decide, by decide, by decide, by decide⟩

/-- C2 amended: whenever the table's version differs from a Result's
captured version (Insert and delete advance the version; a successful
update leaves it unchanged, so an update never invalidates other Results),
every operation on that Result fails: `Delete`, `Update` and `Order`
return the "table has changed" staleness error; `Get` and `Iter` return
the staleness error when the captured table index is still within the
current data bounds and the "copy: index out of range" error when the
table has shrunk below it.  No operation returns data. -/
theorem staleness_detection_amended {E : Type} (cfg : Config E)
    (st : Table E) (r : Result) (h : st.version ≠ r.version)
    (less : E → E → Bool) (e : E) :
    (∀ n idx, getI r.tableIndex n = some idx →
        Result.Get st r n =
          .error (if 0 ≤ idx ∧ idx < (st.data.length : Int)
                  then .copyTableChanged else .copyIndexOutOfRange)) ∧
    (∀ idx rest, r.tableIndex = idx :: rest →
        Result.Iter st r =
          [.error (if 0 ≤ idx ∧ idx < (st.data.length : Int)
                   then .copyTableChanged else .copyIndexOutOfRange)]) ∧
    (∀ n idx, getI r.tableIndex n = some idx →
        Result.Delete cfg st r n = some (st, r, some .deleteTableChanged)) ∧
    (∀ n idx, getI r.tableIndex n = some idx →
        Result.Update cfg st r n e = some (st, some .updateTableChanged)) ∧
    (Result.Order st r less = .error .orderTableChanged) := by
  have hcopy : ∀ idx : Int, Table.copy st idx r.version =
      .error (if 0 ≤ idx ∧ idx < (st.data.length : Int)
              then .copyTableChanged else .copyIndexOutOfRange) := by
    intro idx
    by_cases hb : 0 ≤ idx ∧ idx < (st.data.length : Int)
    · rw [if_pos hb]
      simp only [Table.copy, getI_eq_some st.data idx hb.1 hb.2]
      rw [if_pos h]
    · rw [if_neg hb]
      simp only [Table.copy, getI_eq_none st.data idx (by omega)]
  refine ⟨?_, ?_, ?_, ?_, ?_⟩
  · intro n idx hg
    simp only [Result.Get, hg]
    exact hcopy idx
  · intro idx rest hr
    simp only [Result.Iter, hr, iterFrom, hcopy idx]
  · intro n idx hg
    have hd : Table.delete cfg st idx r.version =
        some (st, some .deleteTableChanged) := by
      unfold Table.delete
      rw [if_pos h]
    simp only [Result.Delete, hg, hd]
  · intro n idx hg
    have hu : Table.update cfg st idx r.version e =
        some (st, some .updateTableChanged) := by
      unfold Table.update
      rw [if_pos h]
    simp only [Result.Update, hg, hu]
  · have ho : Table.order st r.tableIndex less r.version =
        .error .orderTableChanged := by
      unfold Table.order
      rw [if_pos h]
    simp only [Result.Order, ho]

/-- C2 witness: the amended theorem applied to a stale Result (captured at
version 0, table now empty at version 1): `Order` returns the staleness
error. -/
theorem staleness_detection_amended_witness :
    Result.Order ({ data := [], version := 1, journal := [] } : Table Int)
      { tableIndex := [0], version := 0 } (fun a b => decide (a < b)) =
      .error .orderTableChanged :=
  (staleness_detection_amended cfgPlain
    { data := [], version := 1, journal := [] }
    { tableIndex := [0], version := 0 } (by decide)
    (fun a b => decide (a < b)) 0).2.2.2.2

/-!
## Properties of removing position `k` from a list
(`copy(xs[k:], xs[k+1:]); xs = xs[:len-1]` in the source is
`xs.take k ++ xs.drop (k+1)` here)
-/

theorem length_removeAt {α : Type} (l : List α) (k : Nat) (hk : k < l.length) :
    (l.take k ++ l.drop (k + 1)).length = l.length - 1 := by
  rw [List.length_append, List.length_take, List.length_drop]
  omega

theorem mem_removeAt {α : Type} {l : List α} {k : Nat} {x : α}
    (hx : x ∈ l.take k ++ l.drop (k + 1)) : x ∈ l := by
  rcases List.mem_append.mp hx with h | h
  · exact List.take_subset _ _ h
  · exact List.drop_subset _ _ h

theorem removeAt_sublist {α : Type} (l : List α) (k : Nat) :
    List.Sublist (l.take k ++ l.drop (k + 1)) l := by
  have hdd : l.drop (k + 1) = (l.drop k).drop 1 := by
    rw [List.drop_drop]
  have h1 : List.Sublist (l.drop (k + 1)) (l.drop k) := by
    rw [hdd]
    exact List.drop_sublist 1 (l.drop k)
  have h2 : List.Sublist (l.take k ++ l.drop (k + 1)) (l.take k ++ l.drop k) :=
    (List.append_sublist_append_left (l.take k)).mpr h1
  rw [List.take_append_drop] at h2
  exact h2

theorem nodup_removeAt {α : Type} {l : List α} (h : l.Nodup) (k : Nat) :
    (l.take k ++ l.drop (k + 1)).Nodup :=
  List.Sublist.nodup (removeAt_sublist l k) h

theorem removeAt_not_mem {α : Type} {l : List α} (h : l.Nodup) (k : Nat)
    (hk : k < l.length) : l.get ⟨k, hk⟩ ∉ l.take k ++ l.drop (k + 1) := by
  intro hmem
  have hl : l = l.take k ++ l.get ⟨k, hk⟩ :: l.drop (k + 1) := by
    conv_lhs => rw [← List.take_append_drop k l]
    rw [List.drop_eq_get_cons hk]
  rw [hl] at h
  rw [List.nodup_append] at h
  obtain ⟨_, hcons, hdisj⟩ := h
  rcases List.mem_append.mp hmem with hx | hx
  · exact hdisj hx (List.mem_cons_self _ _)
  · exact (List.nodup_cons.mp hcons).1 hx

/-- One successful `result.Delete(n)` on a valid result over a table whose
backend never fails: it returns no error, advances the table and the
captured version in lock-step, removes position `n` from the index array
and decrements the retained indices above the deleted table index, and the
result stays valid. -/
theorem resultDelete_step {E : Type} (cfg : Config E) (st : Table E)
    (r : Result) (hval : ValidResult st r) (hper : PersistOk cfg)
    (n : Int) (h0 : 0 ≤ n) (hlen : n < (r.tableIndex.length : Int)) :
    ∃ st' r' tIdx, getI r.tableIndex n = some tIdx ∧
      Result.Delete cfg st r n = some (st', r', none) ∧
      ValidResult st' r' ∧
      st'.version = st.version + 1 ∧
      r'.version = r.version + 1 ∧
      r'.version = st'.version ∧
      st'.data.length = st.data.length - 1 ∧
      r'.tableIndex.length = r.tableIndex.length - 1 ∧
      r'.tableIndex = (r.tableIndex.take n.toNat ++
          r.tableIndex.drop (n.toNat + 1)).map
        (fun i => if tIdx < i then i - 1 else i) := by
  obtain ⟨hver, hnd, hbound⟩ := hval
  have hnn : n.toNat < r.tableIndex.length := by omega
  obtain ⟨T, hgetT⟩ : ∃ t, r.tableIndex.get ⟨n.toNat, hnn⟩ = t := ⟨_, rfl⟩
  have hg : getI r.tableIndex n = some T := by
    rw [← hgetT]
    exact getI_eq_some r.tableIndex n h0 hlen
  have hmemT : T ∈ r.tableIndex := by
    rw [← hgetT]
    exact List.get_mem _ _ _
  obtain ⟨hT0, hTl⟩ := hbound T hmemT
  have hnotmem : T ∉ r.tableIndex.take n.toNat ++
      r.tableIndex.drop (n.toNat + 1) := by
    rw [← hgetT]
    exact removeAt_not_mem hnd n.toNat hnn
  have hvd : ¬ (st.version ≠ r.version) := by omega
  have hTn : T.toNat < st.data.length := by omega
  obtain ⟨E2, hgetE2⟩ : ∃ x, st.data.get ⟨T.toNat, hTn⟩ = x := ⟨_, rfl⟩
  have hgd : getI st.data T = some E2 := by
    rw [← hgetE2]
    exact getI_eq_some st.data T hT0 hTl
  obtain ⟨stp, errp, hpp⟩ : ∃ sp ep,
      persistItem cfg
        { st with
            data := st.data.take T.toNat ++ st.data.drop (T.toNat + 1),
            version := st.version + 1 } E2 = (sp, ep) := ⟨_, _, rfl⟩
  obtain ⟨hsnd, hdata, hver1⟩ := persistItem_components cfg
    { st with
        data := st.data.take T.toNat ++ st.data.drop (T.toNat + 1),
        version := st.version + 1 } E2 hper
  rw [hpp] at hsnd hdata hver1
  obtain rfl : errp = none := hsnd
  have hverp : stp.version = st.version + 1 := hver1
  have hdatap : stp.data =
      st.data.take T.toNat ++ st.data.drop (T.toNat + 1) := hdata
  have hdel : Table.delete cfg st T r.version = some (stp, none) := by
    unfold Table.delete
    rw [if_neg hvd]
    simp only [hgd]
    rw [hpp]
  have hdlen : stp.data.length = st.data.length - 1 := by
    rw [hdatap]
    exact length_removeAt st.data T.toNat hTn
  refine ⟨stp,
    { version := r.version + 1,
      tableIndex := (r.tableIndex.take n.toNat ++
          r.tableIndex.drop (n.toNat + 1)).map
        (fun i => if T < i then i - 1 else i) },
    T, hg, ?_, ?_, hverp, rfl, ?_, hdlen, ?_, rfl⟩
  · simp only [Result.Delete, hg, hdel]
  · refine ⟨?_, ?_, ?_⟩
    · show r.version + 1 = stp.version
      omega
    · refine (List.nodup_map_iff_inj_on (nodup_removeAt hnd n.toNat)).mpr ?_
      intro x hx y hy hf
      have hxn : x ≠ T := fun hc => hnotmem (hc ▸ hx)
      have hyn : y ≠ T := fun hc => hnotmem (hc ▸ hy)
      by_cases h1 : T < x <;> by_cases h2 : T < y <;>
        simp [h1, h2] at hf <;> omega
    · intro i hi
      obtain ⟨x, hx, rfl⟩ := List.mem_map.mp hi
      obtain ⟨hx0, hxl⟩ := hbound x (mem_removeAt hx)
      have hxn : x ≠ T := fun hc => hnotmem (hc ▸ hx)
      rw [hdlen]
      by_cases h1 : T < x <;> simp [h1] <;> omega
  · show r.version + 1 = stp.version
    omega
  · show ((r.tableIndex.take n.toNat ++
        r.tableIndex.drop (n.toNat + 1)).map
      (fun i => if T < i then i - 1 else i)).length =
      r.tableIndex.length - 1
    rw [List.length_map]
    exact length_removeAt r.tableIndex n.toNat hnn

/-- Iterating `result.Delete(0)` `k` times succeeds whenever the result is
valid, its index array has `k` entries, and the backend never fails;
afterwards the index array is empty. -/
theorem deleteSteps_all {E : Type} (cfg : Config E) (hper : PersistOk cfg) :
    ∀ k (st : Table E) (r : Result), ValidResult st r →
      r.tableIndex.length = k →
      ∃ st'' r'', deleteSteps cfg k st r = some (st'', r'') ∧
        r''.tableIndex = [] := by
  intro k
  induction k with
  | zero =>
      intro st r _ hlen
      exact ⟨st, r, rfl, List.length_eq_zero.mp hlen⟩
  | succ k ih =>
      intro st r hval hlen
      obtain ⟨st', r', tIdx, _, hdel, hval', _, _, _, _, hrlen, _⟩ :=
        resultDelete_step cfg st r hval hper 0 (by omega) (by omega)
      obtain ⟨st'', r'', hsteps, hempty⟩ := ih st' r' hval' (by omega)
      refine ⟨st'', r'', ?_, hempty⟩
      simp only [deleteSteps, hdel, hsteps]

/-- C4 (confirmed): a successful `result.Delete(n)` advances the captured
version in lock-step with the table's version, removes position `n` from
the index array and decrements every retained index greater than the
deleted table index; consequently, starting from any valid Result over a
table whose persistence never fails, repeatedly calling `Delete(0)` —
`Size` many times — succeeds at every step and empties the Result, even
though each step mutates the underlying table. -/
theorem result_self_delete_stability {E : Type} (cfg : Config E)
    (st : Table E) (r : Result) (hval : ValidResult st r)
    (hper : PersistOk cfg) :
    (∀ n : Int, 0 ≤ n → n < (r.tableIndex.length : Int) →
       ∃ st' r' tIdx, getI r.tableIndex n = some tIdx ∧
         Result.Delete cfg st r n = some (st', r', none) ∧
         r'.version = r.version + 1 ∧
         st'.version = st.version + 1 ∧
         r'.version = st'.version ∧
         r'.tableIndex = (r.tableIndex.take n.toNat ++
             r.tableIndex.drop (n.toNat + 1)).map
           (fun i => if tIdx < i then i - 1 else i) ∧
         ValidResult st' r') ∧
    (∃ st'' r'', deleteSteps cfg r.tableIndex.length st r = some (st'', r'') ∧
       r''.tableIndex = []) := by
  constructor
  · intro n h0 hlen
    obtain ⟨st', r', tIdx, hg, hdel, hval', hstver, hrver, hlock, _, _, hform⟩ :=
      resultDelete_step cfg st r hval hper n h0 hlen
    exact ⟨st', r', tIdx, hg, hdel, hrver, hstver, hlock, hform, hval'⟩
  · exact deleteSteps_all cfg hper r.tableIndex.length st r hval rfl

/-- C4 witness: on the two-record table `[5, 7]` with a full Result,
deleting position 0 twice succeeds and empties the Result. -/
theorem result_self_delete_stability_witness :
    ∃ st'' r'', deleteSteps cfgPlain 2
        ({ data := [5, 7], version := 0, journal := [] } : Table Int)
        { tableIndex := [0, 1], version := 0 } = some (st'', r'') ∧
      r''.tableIndex = [] :=
  (result_self_delete_stability cfgPlain
    { data := [5, 7], version := 0, journal := [] }
    { tableIndex := [0, 1], version := 0 }
    ⟨rfl, by decide, by decide⟩ (fun _ _ => rfl)).2

end ObjectDB
